import Mathlib

/-!
Verification of the Markov-algorithm interpreter core
(`src/core/markov_engine.py`, `src/assets/core/rule_validator.py`).

Strings are modelled as `List Char` (`Str`); Python `str.find` becomes
`strFind`, Python substring containment (`in`) becomes `containsB`, and
the mutable `MarkovEngine` object becomes an explicit state record that
every operation threads.  Exceptions become `Except` results paired with
the post-failure state, so that preserved diagnostics (history, counters)
remain observable.
-/

abbrev Str := List Char

/-- Decimal digit characters of a natural number, fuel-based so that it
reduces by `decide`/`rfl`. -/
def natToCharsAux : Nat → Nat → List Char → List Char
  | 0, _, acc => acc
  | fuel + 1, n, acc =>
    let d := Char.ofNat (48 + n % 10)
    if n < 10 then d :: acc
    else natToCharsAux fuel (n / 10) (d :: acc)

/-- Decimal rendering of a natural number, as Python's `str(n)` renders it. -/
def natToChars (n : Nat) : Str := natToCharsAux (n + 1) n []

/-- Python `s.find(pat)`: index of the leftmost occurrence of `pat` as a
substring of `s`, `none` when absent.  `find` of an empty pattern is `0`. -/
def strFind (pat : Str) : Str → Option Nat
  | [] => if pat.isPrefixOf [] then some 0 else none
  | c :: t =>
    if pat.isPrefixOf (c :: t) then some 0
    else (strFind pat t).map (· + 1)

/-- Python `pat in s`: substring containment. -/
def containsB (pat s : Str) : Bool := (strFind pat s).isSome

/-- `Rule` from `markov_engine.py`: pattern, replacement, termination flag,
and the mutable per-run application counter. -/
structure Rule where
  pattern : Str
  replacement : Str
  is_final : Bool := false
  applied_count : Nat := 0
  deriving DecidableEq, Repr

/-- The structural mapping produced by `Rule.to_dict` / consumed by
`Rule.from_dict`: keys `pattern`, `replacement`, and an `is_final` key that
may be absent (`none`) on decode. -/
structure RuleRecord where
  pattern : Str
  replacement : Str
  is_final : Option Bool
  deriving DecidableEq, Repr

/-- `Rule.to_dict`. -/
def Rule.to_dict (r : Rule) : RuleRecord :=
  { pattern := r.pattern, replacement := r.replacement, is_final := some r.is_final }

/-- `Rule.from_dict`: `data.get('is_final', False)` defaults the missing key
to `false`; a fresh rule has `applied_count = 0`. -/
def Rule.from_dict (data : RuleRecord) : Rule :=
  { pattern := data.pattern, replacement := data.replacement,
    is_final := data.is_final.getD false, applied_count := 0 }

/-- `RuleValidator` configuration: `max_rule_length` bounds the replacement
(default 1000), `max_pattern_length` bounds the pattern (default 100). -/
structure RuleValidator where
  max_rule_length : Nat := 1000
  max_pattern_length : Nat := 100
  deriving DecidableEq, Repr

/-- The message `f"Заменяемое значение слишком длинное ({len} > {limit})"`. -/
def msgPatternTooLong (len lim : Nat) : Str :=
  "Заменяемое значение слишком длинное (".data ++ natToChars len
    ++ " > ".data ++ natToChars lim ++ ")".data

/-- The message for an over-long replacement. -/
def msgReplacementTooLong (len lim : Nat) : Str :=
  "Значение на которое нужно заменить слишком длинное (".data ++ natToChars len
    ++ " > ".data ++ natToChars lim ++ ")".data

/-- `RuleValidator.validate_rule`.  The Python type checks cannot fire in a
statically typed embedding, so only the two length checks remain; each
violation appends one message embedding the offending length and the limit. -/
def RuleValidator.validate_rule (v : RuleValidator) (pattern replacement : Str)
    (_is_final : Bool) : List Str :=
  (if pattern.length > v.max_pattern_length
    then [msgPatternTooLong pattern.length v.max_pattern_length] else [])
  ++ (if replacement.length > v.max_rule_length
    then [msgReplacementTooLong replacement.length v.max_rule_length] else [])

/-- The growth warning for 0-based rule index `i`:
`f"Правило {i+1} может вызвать бесконечный рост строки: '{pattern}'→'{replacement}'"`. -/
def growthMsg (i : Nat) (pattern replacement : Str) : Str :=
  "Правило ".data ++ natToChars (i + 1)
    ++ " может вызвать бесконечный рост строки: '".data ++ pattern
    ++ "'→'".data ++ replacement ++ "'".data

/-- The mutual-substitution warning for 0-based indices `i`, `j`:
`f"Взаимные замены между правилами {i+1} и {j+1}"`. -/
def mutualMsg (i j : Nat) : Str :=
  "Взаимные замены между правилами ".data ++ natToChars (i + 1)
    ++ " и ".data ++ natToChars (j + 1)

/-- First loop of `detect_potential_cycles`: growth warnings, scanning from
0-based index `i`. -/
def growthWarnings : Nat → List (Str × Str × Bool) → List Str
  | _, [] => []
  | i, (p, r, _) :: rest =>
    (if r.length > p.length ∧ p ≠ [] then [growthMsg i p r] else [])
      ++ growthWarnings (i + 1) rest

/-- Inner loop of the mutual-substitution check: rule `i` (pattern `pi`,
replacement `ri`) against each rule of `js` starting at index `j`. -/
def mutualRow (i : Nat) (pi ri : Str) : Nat → List (Str × Str × Bool) → List Str
  | _, [] => []
  | j, (pj, rj, _) :: rest =>
    (if i ≠ j ∧ containsB pi rj ∧ containsB pj ri then [mutualMsg i j] else [])
      ++ mutualRow i pi ri (j + 1) rest

/-- Outer loop of the mutual-substitution check over rules starting at
index `i`; `all` is the full rule list the inner loop scans. -/
def mutualWarnings (all : List (Str × Str × Bool)) :
    Nat → List (Str × Str × Bool) → List Str
  | _, [] => []
  | i, (p, r, _) :: rest =>
    mutualRow i p r 0 all ++ mutualWarnings all (i + 1) rest

/-- `RuleValidator.detect_potential_cycles`: growth warnings followed by
mutual-substitution warnings, all 1-based in the messages. -/
def detect_potential_cycles (rules : List (Str × Str × Bool)) : List Str :=
  growthWarnings 0 rules ++ mutualWarnings rules 0 rules

/-- One entry of `ExecutionHistory`, as built by `ExecutionHistory.add_entry`
(the rule snapshot is taken after its `applied_count` was incremented). -/
structure HistoryEntry where
  iteration : Nat
  rule_pattern : Str
  rule_replacement : Str
  is_final : Bool
  position : Nat
  before : Str
  after : Str
  rule_applied_count : Nat
  deriving DecidableEq, Repr

/-- The non-empty payload of `ExecutionHistory.get_stats`. -/
structure HistStats where
  total_steps : Nat
  final_rule_applied : Bool
  unique_rules_applied : Nat
  deriving DecidableEq, Repr

/-- `ExecutionHistory.get_stats`: `none` models the empty dict returned for an
empty history. -/
def get_stats (entries : List HistoryEntry) : Option HistStats :=
  if entries.isEmpty then none
  else some
    { total_steps := entries.length,
      final_rule_applied := entries.any (fun en => en.is_final),
      unique_rules_applied := ((entries.map (fun en => en.rule_pattern)).dedup).length }

/-- The `statistics` mapping of `_build_result`: lifetime counters merged with
history stats and rule counts. -/
structure Statistics where
  total_executions : Nat
  total_replacements : Nat
  total_cycles_detected : Nat
  hist : Option HistStats
  rules_count : Nat
  active_rules_count : Nat
  deriving DecidableEq, Repr

/-- One element of the `rule_usage` list of `_build_result`. -/
structure RuleUsage where
  pattern : Str
  replacement : Str
  is_final : Bool
  applied_count : Nat
  deriving DecidableEq, Repr

/-- The `status` field of a successful result. -/
inductive Status where
  | completed
  | completed_final
  deriving DecidableEq, Repr

/-- `ExecutionLimitError`, split by which limit fired. -/
inductive ExecErr where
  | outputLimit (observed limit : Nat)
  | iterLimit (limit : Nat)
  deriving DecidableEq, Repr

/-- The result dictionary built by `MarkovEngine._build_result`. -/
structure ExecResult where
  output : Str
  status : Status
  iterations : Nat
  warnings : List Str
  statistics : Statistics
  history : List HistoryEntry
  rule_usage : List RuleUsage
  deriving DecidableEq, Repr

/-- The mutable state of a `MarkovEngine` instance. -/
structure MarkovEngine where
  rules : List Rule := []
  validator : RuleValidator := {}
  history : List HistoryEntry := []
  max_iterations : Nat := 1000
  max_output_length : Nat := 10000
  total_executions : Nat := 0
  total_replacements : Nat := 0
  total_cycles_detected : Nat := 0
  deriving DecidableEq, Repr

/-- `MarkovEngine()` with every default. -/
def defaultEngine : MarkovEngine := {}

/-- `MarkovEngine.add_rule`: validate, then either raise (message returned,
state untouched) or append the fresh rule. -/
def MarkovEngine.add_rule (e : MarkovEngine) (pattern replacement : Str)
    (is_final : Bool) : Option Str × MarkovEngine :=
  let errors := e.validator.validate_rule pattern replacement is_final
  if errors.isEmpty then
    (none, { e with rules := e.rules ++
      [{ pattern := pattern, replacement := replacement,
         is_final := is_final, applied_count := 0 }] })
  else
    (some ("Недействительное правило: ".data ++ List.intercalate ", ".data errors), e)

/-- `MarkovEngine.clear_rules`. -/
def MarkovEngine.clear_rules (e : MarkovEngine) : MarkovEngine :=
  { e with rules := [] }

/-- The decoding half of `MarkovEngine.load_rules` (the JSON file already
parsed into records): clear the rules, then append `Rule.from_dict` of each
record — with no validation. -/
def MarkovEngine.load_rules (e : MarkovEngine) (rules_data : List RuleRecord) :
    MarkovEngine :=
  { e with rules := rules_data.map Rule.from_dict }

/-- `MarkovEngine.validate_rule_set`: delegate to the cycle detector over
(pattern, replacement, is_final) tuples. -/
def MarkovEngine.validate_rule_set (e : MarkovEngine) : List Str :=
  detect_potential_cycles (e.rules.map (fun r => (r.pattern, r.replacement, r.is_final)))

/-- The splice `work[:pos] + replacement + work[pos+len(pattern):]`. -/
def splice (work : Str) (pos : Nat) (pat repl : Str) : Str :=
  work.take pos ++ repl ++ work.drop (pos + pat.length)

/-- The rule scan of one loop iteration: the first rule (priority order)
whose pattern occurs in `work`, with its index and the leftmost match
position. -/
def findMatch : List Rule → Str → Option (Nat × Rule × Nat)
  | [], _ => none
  | r :: rest, work =>
    match strFind r.pattern work with
    | some pos => some (0, r, pos)
    | none => (findMatch rest work).map (fun x => (x.1 + 1, x.2))

/-- `rule.applied_count += 1` on the rule at index `i`. -/
def bumpAt : List Rule → Nat → List Rule
  | [], _ => []
  | r :: rest, 0 => { r with applied_count := r.applied_count + 1 } :: rest
  | r :: rest, n + 1 => r :: bumpAt rest n

/-- `MarkovEngine._build_result`. -/
def MarkovEngine.build_result (e : MarkovEngine) (output : Str) (status : Status)
    (iterations : Nat) (warnings : List Str) : ExecResult :=
  { output := output, status := status, iterations := iterations,
    warnings := warnings,
    statistics :=
      { total_executions := e.total_executions,
        total_replacements := e.total_replacements,
        total_cycles_detected := e.total_cycles_detected,
        hist := get_stats e.history,
        rules_count := e.rules.length,
        active_rules_count := (e.rules.filter (fun r => r.applied_count > 0)).length },
    history := e.history,
    rule_usage := e.rules.map (fun r =>
      { pattern := r.pattern, replacement := r.replacement,
        is_final := r.is_final, applied_count := r.applied_count }) }

/-- The main loop of `MarkovEngine.execute`; `fuel` is the number of
iterations `while iteration < max_iterations` still allows. -/
def execLoop (warnings : List Str) :
    Nat → Str → Nat → MarkovEngine → Except ExecErr ExecResult × MarkovEngine
  | 0, _, _, e =>
    let e2 := { e with total_cycles_detected := e.total_cycles_detected + 1 }
    (Except.error (ExecErr.iterLimit e2.max_iterations), e2)
  | fuel + 1, work, iteration, e =>
    let it := iteration + 1
    match findMatch e.rules work with
    | none => (Except.ok (e.build_result work Status.completed it warnings), e)
    | some (i, r, pos) =>
      let work2 := splice work pos r.pattern r.replacement
      let entry : HistoryEntry :=
        { iteration := it, rule_pattern := r.pattern,
          rule_replacement := r.replacement, is_final := r.is_final,
          position := pos, before := work, after := work2,
          rule_applied_count := r.applied_count + 1 }
      let e2 := { e with rules := bumpAt e.rules i,
                         total_replacements := e.total_replacements + 1,
                         history := e.history ++ [entry] }
      if work2.length > e2.max_output_length then
        (Except.error (ExecErr.outputLimit work2.length e2.max_output_length), e2)
      else if r.is_final then
        (Except.ok (e2.build_result work2 Status.completed_final it warnings), e2)
      else
        execLoop warnings fuel work2 it e2

/-- `MarkovEngine.execute`: clear history, zero the per-rule counters, count
the execution, collect advisory warnings, and run the loop. -/
def MarkovEngine.execute (e : MarkovEngine) (input_text : Str) :
    Except ExecErr ExecResult × MarkovEngine :=
  let e1 := { e with history := [],
                     rules := e.rules.map (fun r => { r with applied_count := 0 }),
                     total_executions := e.total_executions + 1 }
  execLoop e1.validate_rule_set e1.max_iterations input_text 0 e1

/-- Engine of the priority test: rules `a→1`, `a→2`, default limits. -/
def exC1 : MarkovEngine :=
  { rules := [{ pattern := "a".data, replacement := "1".data },
              { pattern := "a".data, replacement := "2".data }] }

/-- Engine of the growth-limit test: rule `a→aa`, `max_iterations = 100`. -/
def exC2 : MarkovEngine :=
  { rules := [{ pattern := "a".data, replacement := "aa".data }],
    max_iterations := 100 }

/-- Engine of the final-rule test: `a→b`, `b→c` final, `c→d`. -/
def exC4 : MarkovEngine :=
  { rules := [{ pattern := "a".data, replacement := "b".data },
              { pattern := "b".data, replacement := "c".data, is_final := true },
              { pattern := "c".data, replacement := "d".data }] }

/-- The rule tuples of the mutual-substitution test: `a→ba`, `b→a`. -/
def exC8rules : List (Str × Str × Bool) :=
  [("a".data, "ba".data, false), ("b".data, "a".data, false)]

/-- Zero every rule's `applied_count`, as the preamble of `execute` does. -/
def resetCounts (e : MarkovEngine) : MarkovEngine :=
  { e with rules := e.rules.map (fun r => { r with applied_count := 0 }) }

/-- Whether an execution outcome is a success (no exception). -/
def resultIsOk : Except ExecErr ExecResult → Bool
  | Except.ok _ => true
  | Except.error _ => false

/-- The raised `ExecutionLimitError` of an execution outcome, if any. -/
def resultError : Except ExecErr ExecResult → Option ExecErr
  | Except.ok _ => none
  | Except.error er => some er

/-- The public rule-creating operations of the engine other than
`load_rules`: `add_rule` (exception modelled as leaving the state alone)
and `clear_rules`. -/
inductive RuleOp where
  | add (pattern replacement : Str) (is_final : Bool)
  | clear

/-- Run one rule operation against the engine state. -/
def applyOp (e : MarkovEngine) : RuleOp → MarkovEngine
  | RuleOp.add p r f => (e.add_rule p r f).2
  | RuleOp.clear => e.clear_rules

/-- Run a sequence of rule operations left to right. -/
def applyOps : MarkovEngine → List RuleOp → MarkovEngine
  | e, [] => e
  | e, op :: rest => applyOps (applyOp e op) rest

/-- The length invariant of §3: every stored rule respects the engine
validator's pattern and replacement bounds. -/
def rulesWithinLimits (e : MarkovEngine) : Prop :=
  ∀ r ∈ e.rules,
    r.pattern.length ≤ e.validator.max_pattern_length ∧
    r.replacement.length ≤ e.validator.max_rule_length

instance (e : MarkovEngine) : Decidable (rulesWithinLimits e) := by
  unfold rulesWithinLimits; infer_instance

/-- The history entry `execLoop` records for one rule application at
iteration `iteration` (counter snapshot taken after the increment). -/
def stepEntry (iteration : Nat) (r : Rule) (pos : Nat) (work : Str) : HistoryEntry :=
  { iteration := iteration, rule_pattern := r.pattern,
    rule_replacement := r.replacement, is_final := r.is_final,
    position := pos, before := work,
    after := splice work pos r.pattern r.replacement,
    rule_applied_count := r.applied_count + 1 }

/-- The engine state after one rule application of `execLoop` is recorded:
rule `i` bumped, the replacement counted, the entry appended. -/
def stepEngine (e : MarkovEngine) (i : Nat) (entry : HistoryEntry) : MarkovEngine :=
  { e with rules := bumpAt e.rules i,
           total_replacements := e.total_replacements + 1,
           history := e.history ++ [entry] }

/-- The state `execute` starts its loop from: history cleared, per-rule
counters zeroed, the execution counted. -/
def execReset (e : MarkovEngine) : MarkovEngine :=
  { e with history := [],
           rules := e.rules.map (fun r => { r with applied_count := 0 }),
           total_executions := e.total_executions + 1 }

lemma strFind_prefix {pat s : Str} {pos : Nat} (h : strFind pat s = some pos) :
    pat.isPrefixOf (s.drop pos) = true := by
  induction s generalizing pos with
  | nil =>
    by_cases hp : pat.isPrefixOf ([] : Str) = true
    · simp [strFind, hp] at h
      subst h
      simpa using hp
    · simp [strFind, hp] at h
  | cons c t ih =>
    by_cases hp : pat.isPrefixOf (c :: t) = true
    · simp [strFind, hp] at h
      subst h
      simpa using hp
    · simp [strFind, hp] at h
      obtain ⟨q, hq, rfl⟩ := h
      simpa using ih hq

lemma strFind_leftmost {pat s : Str} {pos : Nat} (h : strFind pat s = some pos) :
    ∀ q, q < pos → pat.isPrefixOf (s.drop q) = false := by
  induction s generalizing pos with
  | nil =>
    by_cases hp : pat.isPrefixOf ([] : Str) = true
    · simp [strFind, hp] at h
      subst h
      intro q hq
      omega
    · simp [strFind, hp] at h
  | cons c t ih =>
    by_cases hp : pat.isPrefixOf (c :: t) = true
    · simp [strFind, hp] at h
      subst h
      intro q hq
      omega
    · simp [strFind, hp] at h
      obtain ⟨q0, hq0, rfl⟩ := h
      intro q hq
      cases q with
      | zero =>
        rw [List.drop_zero]
        exact Bool.eq_false_iff.mpr hp
      | succ q1 =>
        rw [List.drop_succ_cons]
        exact ih hq0 q1 (by omega)

lemma strFind_none_prefix {pat s : Str} (h : strFind pat s = none) :
    ∀ q, pat.isPrefixOf (s.drop q) = false := by
  induction s with
  | nil =>
    by_cases hp : pat.isPrefixOf ([] : Str) = true
    · simp [strFind, hp] at h
    · intro q
      rw [List.drop_nil]
      exact Bool.eq_false_iff.mpr hp
  | cons c t ih =>
    by_cases hp : pat.isPrefixOf (c :: t) = true
    · simp [strFind, hp] at h
    · simp [strFind, hp] at h
      intro q
      cases q with
      | zero =>
        rw [List.drop_zero]
        exact Bool.eq_false_iff.mpr hp
      | succ q1 =>
        rw [List.drop_succ_cons]
        exact ih h q1

lemma findMatch_some {rules : List Rule} {work : Str} {i : Nat} {r : Rule} {pos : Nat}
    (h : findMatch rules work = some (i, r, pos)) :
    rules[i]? = some r ∧ strFind r.pattern work = some pos ∧
      ∀ j, j < i → ∀ rj, rules[j]? = some rj → strFind rj.pattern work = none := by
  induction rules generalizing i with
  | nil => simp [findMatch] at h
  | cons r0 rest ih =>
    cases hf : strFind r0.pattern work with
    | some p0 =>
      simp [findMatch, hf] at h
      obtain ⟨rfl, rfl, rfl⟩ := h
      exact ⟨by simp, hf, by intro j hj; omega⟩
    | none =>
      cases hrec : findMatch rest work with
      | none => simp [findMatch, hf, hrec] at h
      | some trip =>
        obtain ⟨i1, r1, pos1⟩ := trip
        have hstep : findMatch (r0 :: rest) work = some (i1 + 1, r1, pos1) := by
          simp [findMatch, hf, hrec]
        rw [hstep] at h
        simp at h
        obtain ⟨rfl, rfl, rfl⟩ := h
        obtain ⟨g1, g2, g3⟩ := ih hrec
        refine ⟨by simpa using g1, g2, ?_⟩
        intro j hj rj hrj
        cases j with
        | zero =>
          simp at hrj
          subst hrj
          exact hf
        | succ j1 =>
          simp at hrj
          exact g3 j1 (by omega) rj hrj

lemma findMatch_eq_none {rules : List Rule} {work : Str}
    (h : ∀ r ∈ rules, strFind r.pattern work = none) :
    findMatch rules work = none := by
  induction rules with
  | nil => simp [findMatch]
  | cons r0 rest ih =>
    have h0 : strFind r0.pattern work = none := h r0 (by simp)
    have hr : ∀ r ∈ rest, strFind r.pattern work = none := by
      intro r hrr
      exact h r (by simp [hrr])
    simp [findMatch, h0, ih hr]

/-- Claim C9: decoding the record produced by encoding a rule reproduces
`pattern`, `replacement` and `is_final` exactly, and a record whose
`is_final` key is absent decodes to a rule with `is_final = false`. -/
theorem c9_record_roundtrip :
    (∀ r : Rule, (Rule.from_dict (Rule.to_dict r)).pattern = r.pattern ∧
      (Rule.from_dict (Rule.to_dict r)).replacement = r.replacement ∧
      (Rule.from_dict (Rule.to_dict r)).is_final = r.is_final) ∧
    (∀ p rep : Str,
      (Rule.from_dict { pattern := p, replacement := rep, is_final := none }).is_final
        = false) := by
  constructor
  · intro r
    simp [Rule.from_dict, Rule.to_dict]
  · intro p rep
    simp [Rule.from_dict]

/-- Claim C5: `add_rule` raises exactly when `validate_rule` reports errors,
a failed add leaves the engine unchanged, a successful add appends exactly
the candidate rule, and with the default limit a pattern of length 101
produces an error message containing both 101 and 100. -/
theorem c5_add_rule_validation :
    (∀ (e : MarkovEngine) (p rep : Str) (f : Bool),
        ((e.add_rule p rep f).1 ≠ none ↔ e.validator.validate_rule p rep f ≠ []) ∧
        ((e.add_rule p rep f).1 ≠ none → (e.add_rule p rep f).2 = e) ∧
        ((e.add_rule p rep f).1 = none →
          (e.add_rule p rep f).2.rules = e.rules ++
            [{ pattern := p, replacement := rep, is_final := f, applied_count := 0 }])) ∧
    (RuleValidator.validate_rule {} (List.replicate 101 'a') [] false ≠ [] ∧
      ∃ m ∈ RuleValidator.validate_rule {} (List.replicate 101 'a') [] false,
        containsB (natToChars 101) m = true ∧ containsB (natToChars 100) m = true) := by
  constructor
  · intro e p rep f
    by_cases hv : (e.validator.validate_rule p rep f).isEmpty = true
    · have hnil : e.validator.validate_rule p rep f = [] := by
        simpa [List.isEmpty_iff] using hv
      refine ⟨?_, ?_, ?_⟩
      · simp [MarkovEngine.add_rule, hv, hnil]
      · simp [MarkovEngine.add_rule, hv]
      · intro _
        simp [MarkovEngine.add_rule, hv]
    · have hne : e.validator.validate_rule p rep f ≠ [] := by
        simpa [List.isEmpty_iff] using hv
      refine ⟨?_, ?_, ?_⟩
      · simp [MarkovEngine.add_rule, hv, hne]
      · intro _
        simp [MarkovEngine.add_rule, hv]
      · intro hok
        simp [MarkovEngine.add_rule, hv] at hok
  · exact ⟨by decide, by decide⟩

theorem c5_witness :
    (defaultEngine.add_rule "a".data "b".data false).2.rules = defaultEngine.rules ++
      [{ pattern := "a".data, replacement := "b".data, is_final := false,
         applied_count := 0 }] :=
  (c5_add_rule_validation.1 defaultEngine "a".data "b".data false).2.2 (by decide)

/-- Claim C3 counterexample: `load_rules` inserts a decoded rule with a
pattern of length 101 without any validation, so the stored rule set
violates the length invariant the claim asserts. -/
theorem c3_counterexample :
    ¬ rulesWithinLimits (defaultEngine.load_rules
      [{ pattern := List.replicate 101 'a', replacement := [], is_final := none }]) := by
  decide

/-- Claim C3 (amended): the length invariant holds after every sequence of
validated `add_rule` and `clear_rules` operations — rules created through
`add_rule` always respect the limits — but `load_rules` bypasses
validation. -/
theorem c3_add_rule_invariant (e : MarkovEngine) (ops : List RuleOp)
    (h : rulesWithinLimits e) : rulesWithinLimits (applyOps e ops) := by
  induction ops generalizing e with
  | nil => exact h
  | cons op rest ih =>
    show rulesWithinLimits (applyOps (applyOp e op) rest)
    apply ih
    cases op with
    | clear =>
      intro r hr
      simp [applyOp, MarkovEngine.clear_rules] at hr
    | add p rep f =>
      by_cases hv : (e.validator.validate_rule p rep f).isEmpty = true
      · have hnil : e.validator.validate_rule p rep f = [] := by
          simpa [List.isEmpty_iff] using hv
        have hp : ¬ e.validator.max_pattern_length < p.length := by
          intro hgt
          simp [RuleValidator.validate_rule, hgt] at hnil
        have hrep : ¬ e.validator.max_rule_length < rep.length := by
          intro hgt
          simp [RuleValidator.validate_rule, hgt] at hnil
        intro r hr
        simp [applyOp, MarkovEngine.add_rule, hv] at hr
        rcases hr with hr | hr
        · simpa [applyOp, MarkovEngine.add_rule, hv] using h r hr
        · subst hr
          constructor
          · simp [applyOp, MarkovEngine.add_rule, hv]
            omega
          · simp [applyOp, MarkovEngine.add_rule, hv]
            omega
      · intro r hr
        simp [applyOp, MarkovEngine.add_rule, hv] at hr
        simpa [applyOp, MarkovEngine.add_rule, hv] using h r hr

theorem c3_witness :
    rulesWithinLimits (applyOps defaultEngine [RuleOp.add "a".data "b".data false]) :=
  c3_add_rule_invariant defaultEngine [RuleOp.add "a".data "b".data false] (by decide)

lemma execLoop_no_match {warnings : List Str} {fuel : Nat} {work : Str}
    {iteration : Nat} {e : MarkovEngine}
    (hno : findMatch e.rules work = none) :
    execLoop warnings (fuel + 1) work iteration e =
      (Except.ok (e.build_result work Status.completed (iteration + 1) warnings), e) := by
  simp [execLoop, hno]

/-- Claim C1: every scan selects the lowest-index rule whose pattern occurs
in the working string (priority is rule order, not match position), the
splice position is that rule's leftmost occurrence, and the priority example
`a→1` / `a→2` on `"aaa"` outputs `"111"`. -/
theorem c1_priority_selection :
    (∀ (rules : List Rule) (work : Str) (i : Nat) (r : Rule) (pos : Nat),
        findMatch rules work = some (i, r, pos) →
        rules[i]? = some r ∧
        (∀ j, j < i → ∀ rj, rules[j]? = some rj → strFind rj.pattern work = none) ∧
        r.pattern.isPrefixOf (work.drop pos) = true ∧
        (∀ q, q < pos → r.pattern.isPrefixOf (work.drop q) = false)) ∧
    (exC1.execute "aaa".data).1.toOption.map ExecResult.output = some "111".data := by
  constructor
  · intro rules work i r pos h
    obtain ⟨g1, g2, g3⟩ := findMatch_some h
    exact ⟨g1, g3, strFind_prefix g2, strFind_leftmost g2⟩
  · decide

theorem c1_witness :
    ([{ pattern := "a".data, replacement := "1".data, is_final := false,
        applied_count := 0 }] : List Rule)[0]? =
      some { pattern := "a".data, replacement := "1".data, is_final := false,
             applied_count := 0 } :=
  (c1_priority_selection.1
    [{ pattern := "a".data, replacement := "1".data, is_final := false,
       applied_count := 0 }]
    "ba".data 0
    { pattern := "a".data, replacement := "1".data, is_final := false,
      applied_count := 0 }
    1 (by decide)).1

/-- Claim C6: when no rule's pattern occurs in the input (the empty rule
list included) and at least one iteration is allowed, `execute` succeeds
with status `completed`, exactly one iteration, the input as output, and an
empty history. -/
theorem c6_no_match (e : MarkovEngine) (input : Str)
    (hno : ∀ r ∈ e.rules, strFind r.pattern input = none)
    (hit : 1 ≤ e.max_iterations) :
    (e.execute input).1.toOption.map
        (fun res => (res.status, res.iterations, res.output, res.history)) =
      some (Status.completed, 1, input, []) := by
  obtain ⟨fuel, hf⟩ : ∃ m, e.max_iterations = m + 1 := ⟨e.max_iterations - 1, by omega⟩
  have hno1 : findMatch (e.rules.map (fun r => { r with applied_count := 0 })) input
      = none := by
    apply findMatch_eq_none
    intro r hr
    simp [List.mem_map] at hr
    obtain ⟨r0, hr0, rfl⟩ := hr
    exact hno r0 hr0
  unfold MarkovEngine.execute
  simp only [hf]
  rw [execLoop_no_match hno1]
  simp [MarkovEngine.build_result]
  exact ⟨_, rfl, rfl, rfl, rfl, rfl⟩

theorem c6_witness :
    (defaultEngine.execute "abc".data).1.toOption.map
        (fun res => (res.status, res.iterations, res.output, res.history)) =
      some (Status.completed, 1, "abc".data, []) :=
  c6_no_match defaultEngine "abc".data (by decide) (by decide)

lemma execLoop_zero (warnings : List Str) (work : Str) (iteration : Nat)
    (e : MarkovEngine) :
    execLoop warnings 0 work iteration e =
      (Except.error (ExecErr.iterLimit e.max_iterations),
       { e with total_cycles_detected := e.total_cycles_detected + 1 }) := by
  simp [execLoop]

lemma execLoop_apply_over {warnings : List Str} {fuel : Nat} {work : Str}
    {iteration : Nat} {e : MarkovEngine} {i : Nat} {r : Rule} {pos : Nat}
    (hm : findMatch e.rules work = some (i, r, pos))
    (hov : (splice work pos r.pattern r.replacement).length > e.max_output_length) :
    execLoop warnings (fuel + 1) work iteration e =
      (Except.error (ExecErr.outputLimit
          (splice work pos r.pattern r.replacement).length e.max_output_length),
       stepEngine e i (stepEntry (iteration + 1) r pos work)) := by
  simp [execLoop, hm, hov, stepEngine, stepEntry]

lemma execLoop_apply_final {warnings : List Str} {fuel : Nat} {work : Str}
    {iteration : Nat} {e : MarkovEngine} {i : Nat} {r : Rule} {pos : Nat}
    (hm : findMatch e.rules work = some (i, r, pos))
    (hov : ¬ (splice work pos r.pattern r.replacement).length > e.max_output_length)
    (hfin : r.is_final = true) :
    execLoop warnings (fuel + 1) work iteration e =
      (Except.ok ((stepEngine e i (stepEntry (iteration + 1) r pos work)).build_result
          (splice work pos r.pattern r.replacement) Status.completed_final
          (iteration + 1) warnings),
       stepEngine e i (stepEntry (iteration + 1) r pos work)) := by
  simp [execLoop, hm, hov, hfin, stepEngine, stepEntry]

lemma execLoop_apply_cont {warnings : List Str} {fuel : Nat} {work : Str}
    {iteration : Nat} {e : MarkovEngine} {i : Nat} {r : Rule} {pos : Nat}
    (hm : findMatch e.rules work = some (i, r, pos))
    (hov : ¬ (splice work pos r.pattern r.replacement).length > e.max_output_length)
    (hfin : r.is_final = false) :
    execLoop warnings (fuel + 1) work iteration e =
      execLoop warnings fuel (splice work pos r.pattern r.replacement) (iteration + 1)
        (stepEngine e i (stepEntry (iteration + 1) r pos work)) := by
  simp [execLoop, hm, hov, hfin, stepEngine, stepEntry]

lemma execLoop_limits (warnings : List Str) :
    ∀ (fuel : Nat) (work : Str) (iteration : Nat) (e : MarkovEngine),
    (execLoop warnings fuel work iteration e).2.max_iterations = e.max_iterations ∧
    (execLoop warnings fuel work iteration e).2.max_output_length
      = e.max_output_length ∧
    (∃ tail, (execLoop warnings fuel work iteration e).2.history
        = e.history ++ tail ∧
      tail.length + e.total_replacements
        = (execLoop warnings fuel work iteration e).2.total_replacements) ∧
    (∀ l, (execLoop warnings fuel work iteration e).1
          = Except.error (ExecErr.iterLimit l) →
      l = e.max_iterations ∧
      (execLoop warnings fuel work iteration e).2.total_cycles_detected
        = e.total_cycles_detected + 1) ∧
    (∀ obs l, (execLoop warnings fuel work iteration e).1
          = Except.error (ExecErr.outputLimit obs l) →
      l = e.max_output_length ∧ l < obs ∧
      ∃ en, (execLoop warnings fuel work iteration e).2.history.getLast? = some en ∧
        en.after.length = obs) ∧
    (∀ res, (execLoop warnings fuel work iteration e).1 = Except.ok res →
      (execLoop warnings fuel work iteration e).2.total_cycles_detected
        = e.total_cycles_detected) := by
  intro fuel
  induction fuel with
  | zero =>
    intro work iteration e
    rw [execLoop_zero]
    refine ⟨rfl, rfl, ⟨[], by simp, by simp⟩, ?_, ?_, ?_⟩
    · intro l hl
      simp at hl
      exact ⟨hl.symm, rfl⟩
    · intro obs l hl
      simp at hl
    · intro res hres
      simp at hres
  | succ fuel ih =>
    intro work iteration e
    cases hm : findMatch e.rules work with
    | none =>
      rw [execLoop_no_match hm]
      refine ⟨rfl, rfl, ⟨[], by simp, by simp⟩, ?_, ?_, ?_⟩
      · intro l hl
        simp at hl
      · intro obs l hl
        simp at hl
      · intro res _
        rfl
    | some trip =>
      obtain ⟨i, r, pos⟩ := trip
      by_cases hov : (splice work pos r.pattern r.replacement).length
          > e.max_output_length
      · rw [execLoop_apply_over hm hov]
        refine ⟨by simp [stepEngine], by simp [stepEngine],
          ⟨[stepEntry (iteration + 1) r pos work], by simp [stepEngine],
            by simp [stepEngine, Nat.add_comm]⟩, ?_, ?_, ?_⟩
        · intro l hl
          simp at hl
        · intro obs l hl
          simp at hl
          obtain ⟨h1, h2⟩ := hl
          refine ⟨h2.symm, by omega, ⟨stepEntry (iteration + 1) r pos work, ?_, ?_⟩⟩
          · simp [stepEngine]
          · simp [stepEntry, h1]
        · intro res hres
          simp at hres
      · cases hfin : r.is_final with
        | true =>
          rw [execLoop_apply_final hm hov hfin]
          refine ⟨by simp [stepEngine], by simp [stepEngine],
            ⟨[stepEntry (iteration + 1) r pos work], by simp [stepEngine],
              by simp [stepEngine, Nat.add_comm]⟩, ?_, ?_, ?_⟩
          · intro l hl
            simp at hl
          · intro obs l hl
            simp at hl
          · intro res _
            simp [stepEngine]
        | false =>
          rw [execLoop_apply_cont hm hov hfin]
          obtain ⟨g1, g2, ⟨tail, gh, gt⟩, g4, g5, g6⟩ :=
            ih (splice work pos r.pattern r.replacement) (iteration + 1)
              (stepEngine e i (stepEntry (iteration + 1) r pos work))
          refine ⟨g1.trans (by simp [stepEngine]), g2.trans (by simp [stepEngine]),
            ⟨stepEntry (iteration + 1) r pos work :: tail, ?_, ?_⟩, ?_, ?_, ?_⟩
          · rw [gh]
            simp [stepEngine]
          · have : (stepEngine e i (stepEntry (iteration + 1) r pos work)).total_replacements
                = e.total_replacements + 1 := by simp [stepEngine]
            rw [this] at gt
            simp only [List.length_cons]
            omega
          · intro l hl
            obtain ⟨k1, k2⟩ := g4 l hl
            refine ⟨k1.trans (by simp [stepEngine]), ?_⟩
            rw [k2]
            simp [stepEngine]
          · intro obs l hl
            obtain ⟨k1, k2, k3⟩ := g5 obs l hl
            exact ⟨k1.trans (by simp [stepEngine]), k2.trans_le (by simp [stepEngine]), k3⟩
          · intro res hres
            exact (g6 res hres).trans (by simp [stepEngine])

lemma execute_eq (e : MarkovEngine) (input : Str) :
    e.execute input =
      execLoop (execReset e).validate_rule_set e.max_iterations input 0 (execReset e) := by
  simp [MarkovEngine.execute, execReset]

/-- Claim C2: an execution error is exactly an iteration-limit failure
(carrying `max_iterations` and incrementing the lifetime cycle counter) or
an output-limit failure raised immediately after the overflowing splice
(observed length strictly above the limit, with the failing entry still the
last of the preserved history); the history always holds one entry per
replacement performed; and the rule `a→aa` on `"a"` with
`max_iterations = 100` fails with the iteration-limit error. -/
theorem c2_execution_limits :
    (∀ (e : MarkovEngine) (input : Str),
        (∀ l, (e.execute input).1 = Except.error (ExecErr.iterLimit l) →
            l = e.max_iterations ∧
            (e.execute input).2.total_cycles_detected = e.total_cycles_detected + 1) ∧
        (∀ obs l, (e.execute input).1 = Except.error (ExecErr.outputLimit obs l) →
            l = e.max_output_length ∧ l < obs ∧
            ∃ en, (e.execute input).2.history.getLast? = some en ∧
              en.after.length = obs) ∧
        (e.execute input).2.history.length + e.total_replacements
          = (e.execute input).2.total_replacements ∧
        (∀ res, (e.execute input).1 = Except.ok res →
            (e.execute input).2.total_cycles_detected = e.total_cycles_detected)) ∧
    (∀ (warnings : List Str) (fuel : Nat) (work : Str) (iteration : Nat)
        (e : MarkovEngine) (i : Nat) (r : Rule) (pos : Nat),
        findMatch e.rules work = some (i, r, pos) →
        (splice work pos r.pattern r.replacement).length > e.max_output_length →
        (execLoop warnings (fuel + 1) work iteration e).1 =
          Except.error (ExecErr.outputLimit
            (splice work pos r.pattern r.replacement).length e.max_output_length)) ∧
    resultError (exC2.execute "a".data).1 = some (ExecErr.iterLimit 100) ∧
    (exC2.execute "a".data).2.total_cycles_detected = 1 := by
  refine ⟨?_, ?_, by decide, by decide⟩
  · intro e input
    rw [execute_eq]
    obtain ⟨g1, g2, ⟨tail, gh, gt⟩, g4, g5, g6⟩ :=
      execLoop_limits (execReset e).validate_rule_set e.max_iterations input 0
        (execReset e)
    refine ⟨?_, ?_, ?_, ?_⟩
    · intro l hl
      obtain ⟨k1, k2⟩ := g4 l hl
      exact ⟨k1.trans (by simp [execReset]), k2.trans (by simp [execReset])⟩
    · intro obs l hl
      obtain ⟨k1, k2, k3⟩ := g5 obs l hl
      exact ⟨k1.trans (by simp [execReset]), k2.trans_le (by simp [execReset]), k3⟩
    · rw [gh]
      have h1 : (execReset e).history = [] := by simp [execReset]
      have h2 : (execReset e).total_replacements = e.total_replacements := by
        simp [execReset]
      rw [h1] at gh ⊢
      rw [h2] at gt
      simpa using gt
    · intro res hres
      exact (g6 res hres).trans (by simp [execReset])
  · intro warnings fuel work iteration e i r pos hm hov
    rw [execLoop_apply_over hm hov]

theorem c2_witness :
    (MarkovEngine.execute { rules := [], max_iterations := 0 } "x".data).2.total_cycles_detected
      = ({ rules := [], max_iterations := 0 } : MarkovEngine).total_cycles_detected + 1 :=
  ((c2_execution_limits.1 { rules := [], max_iterations := 0 } "x".data).1 0 (by rfl)).2

/-- Claim C4: when the selected rule is final (and the splice respects the
output limit, as in every cited run), the loop returns on that same step
with status `completed_final`, the current iteration count and the
post-splice string, scanning no further rules; rules `a→b`, `b→c` (final),
`c→d` on `"abc"` return `"cbc"` with `completed_final` after 2 iterations. -/
theorem c4_final_rule :
    (∀ (warnings : List Str) (fuel : Nat) (work : Str) (iteration : Nat)
        (e : MarkovEngine) (i : Nat) (r : Rule) (pos : Nat),
        findMatch e.rules work = some (i, r, pos) →
        r.is_final = true →
        ¬ (splice work pos r.pattern r.replacement).length > e.max_output_length →
        (execLoop warnings (fuel + 1) work iteration e).1.toOption.map
            (fun res => (res.status, res.iterations, res.output)) =
          some (Status.completed_final, iteration + 1,
            splice work pos r.pattern r.replacement)) ∧
    (exC4.execute "abc".data).1.toOption.map
        (fun res => (res.output, res.status, res.iterations)) =
      some ("cbc".data, Status.completed_final, 2) := by
  constructor
  · intro warnings fuel work iteration e i r pos hm hfin hov
    rw [execLoop_apply_final hm hov hfin]
    simp [MarkovEngine.build_result]
    exact ⟨_, rfl, rfl, rfl, rfl⟩
  · decide

theorem c4_witness :
    (execLoop [] 1 "b".data 0
        { rules := [{ pattern := "b".data, replacement := "c".data,
                      is_final := true, applied_count := 0 }] }).1.toOption.map
        (fun res => (res.status, res.iterations, res.output)) =
      some (Status.completed_final, 1, splice "b".data 0 "b".data "c".data) :=
  c4_final_rule.1 [] 0 "b".data 0
    { rules := [{ pattern := "b".data, replacement := "c".data,
                  is_final := true, applied_count := 0 }] }
    0
    { pattern := "b".data, replacement := "c".data, is_final := true,
      applied_count := 0 }
    0 (by decide) rfl (by decide)

lemma bumpAt_getElem {rules : List Rule} {i k : Nat} {r2 : Rule}
    (h : (bumpAt rules i)[k]? = some r2) :
    ∃ r1, rules[k]? = some r1 ∧ r2.applied_count ≤ r1.applied_count + 1 := by
  induction rules generalizing i k with
  | nil => simp [bumpAt] at h
  | cons r0 rest ih =>
    cases i with
    | zero =>
      cases k with
      | zero =>
        simp [bumpAt] at h
        exact ⟨r0, by simp, by simp [← h]⟩
      | succ k1 =>
        simp [bumpAt] at h
        exact ⟨r2, by simpa using h, by omega⟩
    | succ i1 =>
      cases k with
      | zero =>
        simp [bumpAt] at h
        exact ⟨r2, by simpa using h, by omega⟩
      | succ k1 =>
        simp [bumpAt] at h
        obtain ⟨r1, h1, h2⟩ := ih h
        exact ⟨r1, by simpa using h1, h2⟩

lemma execLoop_counts (warnings : List Str) :
    ∀ (fuel : Nat) (work : Str) (iteration : Nat) (e : MarkovEngine)
      (k : Nat) (r2 : Rule),
    (execLoop warnings fuel work iteration e).2.rules[k]? = some r2 →
    ∃ r1, e.rules[k]? = some r1 ∧ r2.applied_count ≤ r1.applied_count + fuel := by
  intro fuel
  induction fuel with
  | zero =>
    intro work iteration e k r2 h
    rw [execLoop_zero] at h
    exact ⟨r2, by simpa using h, by omega⟩
  | succ fuel ih =>
    intro work iteration e k r2 h
    cases hm : findMatch e.rules work with
    | none =>
      rw [execLoop_no_match hm] at h
      exact ⟨r2, h, by omega⟩
    | some trip =>
      obtain ⟨i, r, pos⟩ := trip
      by_cases hov : (splice work pos r.pattern r.replacement).length
          > e.max_output_length
      · rw [execLoop_apply_over hm hov] at h
        simp only [stepEngine] at h
        obtain ⟨r1, h1, h2⟩ := bumpAt_getElem h
        exact ⟨r1, h1, by omega⟩
      · cases hfin : r.is_final with
        | true =>
          rw [execLoop_apply_final hm hov hfin] at h
          simp only [stepEngine] at h
          obtain ⟨r1, h1, h2⟩ := bumpAt_getElem h
          exact ⟨r1, h1, by omega⟩
        | false =>
          rw [execLoop_apply_cont hm hov hfin] at h
          obtain ⟨rmid, hmid, hle⟩ := ih _ _ _ k r2 h
          simp only [stepEngine] at hmid
          obtain ⟨r1, h1, h2⟩ := bumpAt_getElem hmid
          exact ⟨r1, h1, by omega⟩

lemma bumpAt_getElem_eq :
    ∀ (rules : List Rule) (i k : Nat),
    (bumpAt rules i)[k]? =
      if k = i then
        (rules[k]?).map (fun r => { r with applied_count := r.applied_count + 1 })
      else rules[k]? := by
  intro rules
  induction rules with
  | nil =>
    intro i k
    by_cases h : k = i <;> simp [bumpAt, h]
  | cons r0 rest ih =>
    intro i k
    cases i with
    | zero =>
      cases k with
      | zero => simp [bumpAt]
      | succ k1 => simp [bumpAt]
    | succ i1 =>
      cases k with
      | zero => simp [bumpAt]
      | succ k1 =>
        simp only [bumpAt, List.getElem?_cons_succ]
        rw [ih i1 k1]
        by_cases h : k1 = i1 <;> simp [h]

lemma bumpAt_mono {rules : List Rule} {i k : Nat} {r1 r2 : Rule}
    (h1 : rules[k]? = some r1) (h2 : (bumpAt rules i)[k]? = some r2) :
    r1.applied_count ≤ r2.applied_count := by
  rw [bumpAt_getElem_eq] at h2
  by_cases h : k = i
  · rw [if_pos h, h1] at h2
    simp at h2
    subst h2
    simp
  · rw [if_neg h, h1] at h2
    simp at h2
    subst h2
    exact le_refl _

lemma stepEngine_counts {e : MarkovEngine} {i : Nat} {entry : HistoryEntry}
    {iteration : Nat}
    (hinv : ∀ (k : Nat) (r1 : Rule),
      e.rules[k]? = some r1 → r1.applied_count ≤ iteration) :
    ∀ (k : Nat) (r2 : Rule), (stepEngine e i entry).rules[k]? = some r2 →
      r2.applied_count ≤ iteration + 1 := by
  intro k r2 h2
  simp only [stepEngine] at h2
  rw [bumpAt_getElem_eq] at h2
  by_cases h : k = i
  · rw [if_pos h] at h2
    cases hk : e.rules[k]? with
    | none =>
      rw [hk] at h2
      simp at h2
    | some r1 =>
      rw [hk] at h2
      simp at h2
      subst h2
      have h3 := hinv k r1 hk
      simp
      omega
  · rw [if_neg h] at h2
    have h3 := hinv k r2 h2
    omega

lemma execLoop_counts_mono (warnings : List Str) :
    ∀ (fuel : Nat) (work : Str) (iteration : Nat) (e : MarkovEngine)
      (k : Nat) (r1 r2 : Rule),
    e.rules[k]? = some r1 →
    (execLoop warnings fuel work iteration e).2.rules[k]? = some r2 →
    r1.applied_count ≤ r2.applied_count := by
  intro fuel
  induction fuel with
  | zero =>
    intro work iteration e k r1 r2 h1 h2
    rw [execLoop_zero] at h2
    rw [h1] at h2
    simp at h2
    subst h2
    exact le_refl _
  | succ fuel ih =>
    intro work iteration e k r1 r2 h1 h2
    cases hm : findMatch e.rules work with
    | none =>
      rw [execLoop_no_match hm] at h2
      rw [h1] at h2
      simp at h2
      subst h2
      exact le_refl _
    | some trip =>
      obtain ⟨i, r, pos⟩ := trip
      by_cases hov : (splice work pos r.pattern r.replacement).length
          > e.max_output_length
      · rw [execLoop_apply_over hm hov] at h2
        simp only [stepEngine] at h2
        exact bumpAt_mono h1 h2
      · cases hfin : r.is_final with
        | true =>
          rw [execLoop_apply_final hm hov hfin] at h2
          simp only [stepEngine] at h2
          exact bumpAt_mono h1 h2
        | false =>
          rw [execLoop_apply_cont hm hov hfin] at h2
          have hbump := bumpAt_getElem_eq e.rules i k
          by_cases h : k = i
          · rw [if_pos h, h1] at hbump
            have hmid : (stepEngine e i
                (stepEntry (iteration + 1) r pos work)).rules[k]? =
                some { r1 with applied_count := r1.applied_count + 1 } := by
              simp only [stepEngine]
              simpa using hbump
            have h4 := ih _ _ _ k _ r2 hmid h2
            simp at h4
            omega
          · rw [if_neg h, h1] at hbump
            have hmid : (stepEngine e i
                (stepEntry (iteration + 1) r pos work)).rules[k]? = some r1 := by
              simp only [stepEngine]
              exact hbump
            exact ih _ _ _ k _ r2 hmid h2

lemma execLoop_counts_invariant (warnings : List Str) :
    ∀ (fuel : Nat) (work : Str) (iteration : Nat) (e : MarkovEngine),
    (∀ (k : Nat) (r1 : Rule),
      e.rules[k]? = some r1 → r1.applied_count ≤ iteration) →
    ∀ (k : Nat) (r2 : Rule),
      (execLoop warnings fuel work iteration e).2.rules[k]? = some r2 →
      r2.applied_count ≤ iteration + fuel := by
  intro fuel
  induction fuel with
  | zero =>
    intro work iteration e hinv k r2 h2
    rw [execLoop_zero] at h2
    simpa using hinv k r2 h2
  | succ fuel ih =>
    intro work iteration e hinv k r2 h2
    cases hm : findMatch e.rules work with
    | none =>
      rw [execLoop_no_match hm] at h2
      have h3 := hinv k r2 h2
      omega
    | some trip =>
      obtain ⟨i, r, pos⟩ := trip
      by_cases hov : (splice work pos r.pattern r.replacement).length
          > e.max_output_length
      · rw [execLoop_apply_over hm hov] at h2
        have h3 := stepEngine_counts hinv k r2 h2
        omega
      · cases hfin : r.is_final with
        | true =>
          rw [execLoop_apply_final hm hov hfin] at h2
          have h3 := stepEngine_counts hinv k r2 h2
          omega
        | false =>
          rw [execLoop_apply_cont hm hov hfin] at h2
          have h3 := ih _ (iteration + 1) _ (stepEngine_counts hinv) k r2 h2
          omega

/-- Claim C7: every rule's `applied_count` is reset to zero at the start of
`execute` (stale counters cannot influence the call); during the call the
only counter mutation is the one-step increment of the applied rule, so no
counter ever decreases between any point of the loop and any later point;
from any point of the loop where every counter is bounded by the iterations
performed, every counter stays bounded by `iteration + fuel` — with the
zeroed start and `fuel = max_iterations` this bounds every point of the
call — and after the call no counter exceeds `max_iterations`. -/
theorem c7_applied_counts :
    (∀ (e : MarkovEngine) (input : Str),
        (resetCounts e).execute input = e.execute input) ∧
    (∀ (rules : List Rule) (i k : Nat),
        (bumpAt rules i)[k]? =
          if k = i then
            (rules[k]?).map (fun r => { r with applied_count := r.applied_count + 1 })
          else rules[k]?) ∧
    (∀ (warnings : List Str) (fuel : Nat) (work : Str) (iteration : Nat)
        (e : MarkovEngine) (k : Nat) (r1 r2 : Rule),
        e.rules[k]? = some r1 →
        (execLoop warnings fuel work iteration e).2.rules[k]? = some r2 →
        r1.applied_count ≤ r2.applied_count) ∧
    (∀ (warnings : List Str) (fuel : Nat) (work : Str) (iteration : Nat)
        (e : MarkovEngine),
        (∀ (k : Nat) (r1 : Rule),
          e.rules[k]? = some r1 → r1.applied_count ≤ iteration) →
        ∀ (k : Nat) (r2 : Rule),
          (execLoop warnings fuel work iteration e).2.rules[k]? = some r2 →
          r2.applied_count ≤ iteration + fuel) ∧
    (∀ (e : MarkovEngine) (input : Str) (k : Nat) (r2 : Rule),
        (e.execute input).2.rules[k]? = some r2 →
        r2.applied_count ≤ e.max_iterations) := by
  refine ⟨?_, bumpAt_getElem_eq, execLoop_counts_mono, execLoop_counts_invariant, ?_⟩
  · intro e input
    rw [execute_eq, execute_eq]
    have hE : execReset (resetCounts e) = execReset e := by
      simp [execReset, resetCounts, List.map_map, Function.comp]
    rw [hE]
    have hmi : (resetCounts e).max_iterations = e.max_iterations := by
      simp [resetCounts]
    rw [hmi]
  · intro e input k r2 h
    rw [execute_eq] at h
    obtain ⟨r1, h1, h2⟩ :=
      execLoop_counts (execReset e).validate_rule_set e.max_iterations input 0
        (execReset e) k r2 h
    have hz : r1.applied_count = 0 := by
      simp only [execReset] at h1
      rw [List.getElem?_map] at h1
      obtain ⟨r0, hr0, hfr⟩ := Option.map_eq_some'.mp h1
      rw [← hfr]
    omega

theorem c7_witness :
    ({ pattern := "a".data, replacement := "1".data, is_final := false,
       applied_count := 3 } : Rule).applied_count ≤ exC1.max_iterations :=
  c7_applied_counts.2.2.2.2 exC1 "aaa".data 0
    { pattern := "a".data, replacement := "1".data, is_final := false,
      applied_count := 3 } (by decide)

lemma strFind_nil (s : Str) : strFind ([] : Str) s = some 0 := by
  cases s <;> simp [strFind, List.isPrefixOf]

lemma execLoop_empty_head (warnings : List Str) :
    ∀ (fuel : Nat) (work : Str) (iteration : Nat) (e : MarkovEngine)
      (c : Nat) (rest : List Rule),
    e.rules = { pattern := [], replacement := [], is_final := false,
                applied_count := c } :: rest →
    work.length ≤ e.max_output_length →
    (execLoop warnings fuel work iteration e).1 =
      Except.error (ExecErr.iterLimit e.max_iterations) := by
  intro fuel
  induction fuel with
  | zero =>
    intro work iteration e c rest hr hlen
    rw [execLoop_zero]
  | succ fuel ih =>
    intro work iteration e c rest hr hlen
    have hm : findMatch e.rules work =
        some (0, { pattern := [], replacement := [], is_final := false,
                   applied_count := c }, 0) := by
      rw [hr]
      simp [findMatch, strFind_nil]
    have hsp : splice work 0 ([] : Str) ([] : Str) = work := by
      simp [splice]
    have hov : ¬ (splice work 0
        ({ pattern := [], replacement := [], is_final := false,
           applied_count := c } : Rule).pattern
        ({ pattern := [], replacement := [], is_final := false,
           applied_count := c } : Rule).replacement).length
        > e.max_output_length := by
      simpa [hsp] using hlen
    rw [execLoop_apply_cont hm hov rfl]
    have hrules : (stepEngine e 0
        (stepEntry (iteration + 1)
          { pattern := [], replacement := [], is_final := false,
            applied_count := c } 0 work)).rules =
        { pattern := [], replacement := [], is_final := false,
          applied_count := c + 1 } :: rest := by
      simp [stepEngine, hr, bumpAt]
    have hout : (stepEngine e 0
        (stepEntry (iteration + 1)
          { pattern := [], replacement := [], is_final := false,
            applied_count := c } 0 work)).max_output_length
        = e.max_output_length := by
      simp [stepEngine]
    have := ih (splice work 0 ([] : Str) ([] : Str)) (iteration + 1)
      (stepEngine e 0
        (stepEntry (iteration + 1)
          { pattern := [], replacement := [], is_final := false,
            applied_count := c } 0 work))
      (c + 1) rest hrules (by rw [hsp, hout]; exact hlen)
    rw [this]
    simp [stepEngine]

/-- Claim C10: the empty pattern is found at position 0 of every string,
validation accepts the empty rule `("" → "", non-final)`, and an engine
whose rule at index 0 is that rule never returns a result for inputs within
the output limit: `execute` always raises the iteration-limit error, since
the rule applies every iteration and leaves the string unchanged. -/
theorem c10_empty_pattern :
    (∀ s : Str, strFind ([] : Str) s = some 0) ∧
    (∀ v : RuleValidator, v.validate_rule [] [] false = []) ∧
    (∀ (e : MarkovEngine) (input : Str) (c : Nat) (rest : List Rule),
        e.rules = { pattern := [], replacement := [], is_final := false,
                    applied_count := c } :: rest →
        input.length ≤ e.max_output_length →
        (e.execute input).1 = Except.error (ExecErr.iterLimit e.max_iterations)) := by
  refine ⟨strFind_nil, ?_, ?_⟩
  · intro v
    simp [RuleValidator.validate_rule]
  · intro e input c rest hr hlen
    rw [execute_eq]
    have hr1 : (execReset e).rules =
        { pattern := [], replacement := [], is_final := false,
          applied_count := 0 } :: rest.map (fun r => { r with applied_count := 0 }) := by
      simp [execReset, hr]
    have hlen1 : input.length ≤ (execReset e).max_output_length := by
      simpa [execReset] using hlen
    have := execLoop_empty_head (execReset e).validate_rule_set e.max_iterations
      input 0 (execReset e) 0 (rest.map (fun r => { r with applied_count := 0 }))
      hr1 hlen1
    rw [this]
    simp [execReset]

theorem c10_witness :
    (MarkovEngine.execute
        { rules := [{ pattern := [], replacement := [], is_final := false,
                      applied_count := 0 }], max_iterations := 3 }
        "x".data).1 = Except.error (ExecErr.iterLimit 3) :=
  c10_empty_pattern.2.2
    { rules := [{ pattern := [], replacement := [], is_final := false,
                  applied_count := 0 }], max_iterations := 3 }
    "x".data 0 [] rfl (by decide)

lemma growthWarnings_mem {rules : List (Str × Str × Bool)} :
    ∀ {k : Nat} {m : Str},
    m ∈ growthWarnings k rules ↔
      ∃ d p r f, rules[d]? = some (p, r, f) ∧ r.length > p.length ∧ p ≠ [] ∧
        m = growthMsg (k + d) p r := by
  induction rules with
  | nil =>
    intro k m
    simp [growthWarnings]
  | cons hd rest ih =>
    intro k m
    obtain ⟨p0, r0, f0⟩ := hd
    constructor
    · intro hm
      simp only [growthWarnings] at hm
      rcases List.mem_append.mp hm with hmem | hmem
      · by_cases hc : r0.length > p0.length ∧ p0 ≠ []
        · rw [if_pos hc] at hmem
          simp at hmem
          exact ⟨0, p0, r0, f0, by simp, hc.1, hc.2, by simpa using hmem⟩
        · rw [if_neg hc] at hmem
          simp at hmem
      · obtain ⟨d, p, r, f, h1, h2, h3, h4⟩ := ih.mp hmem
        refine ⟨d + 1, p, r, f, by simpa using h1, h2, h3, ?_⟩
        rw [h4]
        congr 1
        omega
    · rintro ⟨d, p, r, f, h1, h2, h3, h4⟩
      simp only [growthWarnings]
      rw [List.mem_append]
      cases d with
      | zero =>
        simp at h1
        obtain ⟨rfl, rfl, rfl⟩ := h1
        left
        simp [h2, h3, h4]
      | succ d1 =>
        right
        apply ih.mpr
        refine ⟨d1, p, r, f, by simpa using h1, h2, h3, ?_⟩
        rw [h4]
        congr 1
        omega

lemma mutualRow_mem {js : List (Str × Str × Bool)} {i : Nat} {pi ri : Str} :
    ∀ {k : Nat} {m : Str},
    m ∈ mutualRow i pi ri k js ↔
      ∃ d pj rj fj, js[d]? = some (pj, rj, fj) ∧ i ≠ k + d ∧
        containsB pi rj = true ∧ containsB pj ri = true ∧ m = mutualMsg i (k + d) := by
  induction js with
  | nil =>
    intro k m
    simp [mutualRow]
  | cons hd rest ih =>
    intro k m
    obtain ⟨pj0, rj0, fj0⟩ := hd
    constructor
    · intro hm
      simp only [mutualRow] at hm
      rcases List.mem_append.mp hm with hmem | hmem
      · by_cases hc : i ≠ k ∧ containsB pi rj0 = true ∧ containsB pj0 ri = true
        · rw [if_pos hc] at hmem
          simp at hmem
          exact ⟨0, pj0, rj0, fj0, by simp, by simpa using hc.1, hc.2.1, hc.2.2,
            by simpa using hmem⟩
        · rw [if_neg hc] at hmem
          simp at hmem
      · obtain ⟨d, pj, rj, fj, h1, h2, h3, h4, h5⟩ := ih.mp hmem
        refine ⟨d + 1, pj, rj, fj, by simpa using h1, by omega, h3, h4, ?_⟩
        rw [h5]
        congr 1
        omega
    · rintro ⟨d, pj, rj, fj, h1, h2, h3, h4, h5⟩
      simp only [mutualRow]
      rw [List.mem_append]
      cases d with
      | zero =>
        simp at h1
        obtain ⟨rfl, rfl, rfl⟩ := h1
        left
        rw [if_pos ⟨by omega, h3, h4⟩]
        simpa using h5
      | succ d1 =>
        right
        apply ih.mpr
        refine ⟨d1, pj, rj, fj, by simpa using h1, by omega, h3, h4, ?_⟩
        rw [h5]
        congr 1
        omega

lemma mutualWarnings_mem {all rules : List (Str × Str × Bool)} :
    ∀ {k : Nat} {m : Str},
    m ∈ mutualWarnings all k rules ↔
      ∃ d p r f, rules[d]? = some (p, r, f) ∧ m ∈ mutualRow (k + d) p r 0 all := by
  induction rules with
  | nil =>
    intro k m
    simp [mutualWarnings]
  | cons hd rest ih =>
    intro k m
    obtain ⟨p0, r0, f0⟩ := hd
    constructor
    · intro hm
      simp only [mutualWarnings] at hm
      rcases List.mem_append.mp hm with hmem | hmem
      · exact ⟨0, p0, r0, f0, by simp, by simpa using hmem⟩
      · obtain ⟨d, p, r, f, h1, h2⟩ := ih.mp hmem
        refine ⟨d + 1, p, r, f, by simpa using h1, ?_⟩
        have harith : k + (d + 1) = k + 1 + d := by omega
        rw [harith]
        exact h2
    · rintro ⟨d, p, r, f, h1, h2⟩
      simp only [mutualWarnings]
      rw [List.mem_append]
      cases d with
      | zero =>
        simp at h1
        obtain ⟨rfl, rfl, rfl⟩ := h1
        left
        simpa using h2
      | succ d1 =>
        right
        apply ih.mpr
        refine ⟨d1, p, r, f, by simpa using h1, ?_⟩
        have harith : k + 1 + d1 = k + (d1 + 1) := by omega
        rw [harith]
        exact h2

lemma execLoop_warnings_isOk (w1 w2 : List Str) :
    ∀ (fuel : Nat) (work : Str) (iteration : Nat) (e : MarkovEngine),
    resultIsOk (execLoop w1 fuel work iteration e).1 =
      resultIsOk (execLoop w2 fuel work iteration e).1 := by
  intro fuel
  induction fuel with
  | zero =>
    intro work iteration e
    rw [execLoop_zero, execLoop_zero]
  | succ fuel ih =>
    intro work iteration e
    cases hm : findMatch e.rules work with
    | none =>
      rw [execLoop_no_match hm, execLoop_no_match hm]
      rfl
    | some trip =>
      obtain ⟨i, r, pos⟩ := trip
      by_cases hov : (splice work pos r.pattern r.replacement).length
          > e.max_output_length
      · rw [execLoop_apply_over hm hov, execLoop_apply_over hm hov]
      · cases hfin : r.is_final with
        | true =>
          rw [execLoop_apply_final hm hov hfin, execLoop_apply_final hm hov hfin]
          rfl
        | false =>
          rw [execLoop_apply_cont hm hov hfin, execLoop_apply_cont hm hov hfin]
          exact ih _ _ _

/-- Claim C8: `detect_potential_cycles` emits the growth warning naming
1-based rule `i+1` exactly when `len(replacement) > len(pattern)` with a
non-empty pattern, and the mutual-substitution warning naming `i+1`, `j+1`
exactly when `i ≠ j`, pattern `i` occurs in replacement `j` and pattern `j`
occurs in replacement `i`; the warnings never change whether execution
succeeds; and `[(a→ba), (b→a)]` produces a mutual-substitution warning. -/
theorem c8_cycle_heuristics :
    (∀ (rules : List (Str × Str × Bool)) (m : Str),
        m ∈ detect_potential_cycles rules ↔
          ((∃ i p r f, rules[i]? = some (p, r, f) ∧ r.length > p.length ∧
              p ≠ [] ∧ m = growthMsg i p r) ∨
           (∃ i j p1 r1 f1 p2 r2 f2, rules[i]? = some (p1, r1, f1) ∧
              rules[j]? = some (p2, r2, f2) ∧ i ≠ j ∧
              containsB p1 r2 = true ∧ containsB p2 r1 = true ∧
              m = mutualMsg i j))) ∧
    (∀ (w1 w2 : List Str) (fuel : Nat) (work : Str) (iteration : Nat)
        (e : MarkovEngine),
        resultIsOk (execLoop w1 fuel work iteration e).1 =
          resultIsOk (execLoop w2 fuel work iteration e).1) ∧
    mutualMsg 0 1 ∈ detect_potential_cycles exC8rules := by
  refine ⟨?_, execLoop_warnings_isOk, by decide⟩
  intro rules m
  unfold detect_potential_cycles
  rw [List.mem_append]
  constructor
  · intro h
    rcases h with h | h
    · left
      obtain ⟨d, p, r, f, h1, h2, h3, h4⟩ := growthWarnings_mem.mp h
      exact ⟨d, p, r, f, h1, h2, h3, by simpa using h4⟩
    · right
      obtain ⟨d, p, r, f, h1, hrow⟩ := mutualWarnings_mem.mp h
      obtain ⟨d2, p2, r2, f2, g1, g2, g3, g4, g5⟩ := mutualRow_mem.mp hrow
      exact ⟨d, d2, p, r, f, p2, r2, f2, h1, g1, by simpa using g2, g3, g4,
        by simpa using g5⟩
  · intro h
    rcases h with ⟨i, p, r, f, h1, h2, h3, h4⟩ |
      ⟨i, j, p1, r1, f1, p2, r2, f2, h1, h2, h3, h4, h5, h6⟩
    · left
      exact growthWarnings_mem.mpr ⟨i, p, r, f, h1, h2, h3, by simpa using h4⟩
    · right
      apply mutualWarnings_mem.mpr
      refine ⟨i, p1, r1, f1, h1, ?_⟩
      apply mutualRow_mem.mpr
      exact ⟨j, p2, r2, f2, h2, by simpa using h3, h4, h5, by simpa using h6⟩
